import Mathlib

/-!
Verification of the Arora-Blumofe-Plaxton work-stealing deque and the
fork-join scheduler built on it (scheduler.h).

The deque state is embedded shallowly: `qidx` and `tag_t` are C `unsigned int`
values, modelled as `Nat` with arithmetic reduced modulo `2^32` wherever the
source performs an increment that can wrap.  The packed `age_t` union (one
64-bit word holding `tag` in the low half and `top` in the high half) is
modelled as a structure of the two fields; the hardware compare-and-swap on
the packed word compares both fields at once, which structure equality
captures exactly while both fields are below `2^32` (the initial state has
both zero and every update reduces modulo `2^32`).

Each deque operation below is translated line by line from the source.
`pop_top` and `pop_bottom` contain one compare-and-swap instruction; the
value held by the `age` word at the instant the CAS executes may differ from
the value the operation read earlier, because concurrent thieves update
`age` by CAS.  The embedding therefore passes that instant's value as an
explicit argument `ageC`: the CAS succeeds exactly when `ageC` equals the
value read earlier.  The returned state applies the operation's own writes.
The purely sequential operations (`*_seq`) instantiate `ageC` with the value
read by the operation itself, which is what happens when no other thread
intervenes.
-/

namespace SchedulerH

/-- Capacity of each deque: `static int const q_size = 200`. -/
def q_size : Nat := 200

/-- Modulus for 32-bit unsigned arithmetic (`qidx`, `tag_t`). -/
def pow32 : Nat := 2 ^ 32

/-- Modulus for 64-bit unsigned arithmetic (`size_t`, `uint64_t`). -/
def pow64 : Nat := 2 ^ 64

/-- The `age_t` union: a tag and a top index packed into one CAS-able word. -/
structure AgeT where
  tag : Nat
  top : Nat
deriving DecidableEq

/-- State of one `Deque`.  Jobs (`Job*` pointers) are modelled as natural
numbers; the slot array `padded_job deq[q_size]` is modelled as a total
function from indices to job values (the source array's cells hold
indeterminate values until written, which a total function also captures). -/
structure Deque where
  age : AgeT
  bot : Nat
  deq : Nat → Nat

/-- `Deque() : bot(0) { age.pair.tag = 0; age.pair.top = 0; }`.
The slot array is uninitialized in the source; the model fills it with 0. -/
def Deque.init : Deque :=
  { age := ⟨0, 0⟩, bot := 0, deq := fun _ => 0 }

/-- `push_bottom(Job* job)`: write the job at index `bot`, increment `bot`;
abort (`none`) if the incremented bottom reaches `q_size`. -/
def push_bottom (s : Deque) (job : Nat) : Option Deque :=
  let local_bot := s.bot
  let deq1 := fun i => if i = local_bot then job else s.deq i
  let local_bot1 := (local_bot + 1) % pow32
  if local_bot1 = q_size then
    none
  else
    some { age := s.age, bot := local_bot1, deq := deq1 }

/-- `pop_top()`: `ageC` is the value of the `age` word at the CAS
instruction (equal to `old_age` exactly when no concurrent update hit
`age` in between, which is the condition for CAS success). -/
def pop_top (s : Deque) (ageC : AgeT) : Option Nat × Deque :=
  let old_age := s.age
  let local_bot := s.bot
  if local_bot ≤ old_age.top then
    (none, s)
  else
    let job := s.deq old_age.top
    let new_age : AgeT := ⟨old_age.tag, (old_age.top + 1) % pow32⟩
    if ageC = old_age then
      (some job, { s with age := new_age })
    else
      (none, s)

/-- `pop_bottom()`: `ageC` is the value of the `age` word at the CAS
instruction.  The source short-circuits `local_bot == old_age.pair.top &&
cas(...)`, so the CAS succeeds only when both the index test and the word
comparison hold; in every other case of the `else` branch the new age is
written with a plain store. -/
def pop_bottom (s : Deque) (ageC : AgeT) : Option Nat × Deque :=
  if s.bot = 0 then
    (none, s)
  else
    let local_bot := s.bot - 1
    let job := s.deq local_bot
    let old_age := s.age
    if old_age.top < local_bot then
      (some job, { s with bot := local_bot })
    else
      let new_age : AgeT := ⟨(old_age.tag + 1) % pow32, 0⟩
      if local_bot = old_age.top ∧ ageC = old_age then
        (some job, { s with bot := 0, age := new_age })
      else
        (none, { s with bot := 0, age := new_age })

/-- `pop_top` as executed with no interference at the CAS. -/
def pop_top_seq (s : Deque) : Option Nat × Deque :=
  pop_top s s.age

/-- `pop_bottom` as executed with no interference at the CAS. -/
def pop_bottom_seq (s : Deque) : Option Nat × Deque :=
  pop_bottom s s.age

/-- The deque invariant maintained at quiescent points: the top index never
exceeds the bottom index, and the bottom index stays strictly below the
capacity (push aborts before ever storing `q_size` into `bot`). -/
def DequeInv (s : Deque) : Prop :=
  s.age.top ≤ s.bot ∧ s.bot < q_size

instance (s : Deque) : Decidable (DequeInv s) := by
  unfold DequeInv
  infer_instance

/-- `uint64_t hash(uint64_t x)`: the fixed avalanche mixing function
(the splitmix64 finalizer).  64-bit unsigned arithmetic. -/
def hash (x : Nat) : Nat :=
  let x1 := Nat.xor x (x >>> 30) * 0xbf58476d1ce4e5b9 % pow64
  let x2 := Nat.xor x1 (x1 >>> 27) * 0x94d049bb133111eb % pow64
  Nat.xor x2 (x2 >>> 31)

/-- State of `scheduler<Job>` plus the host runtime's thread-count setting.
`deques` and `attempts` are the two arrays the constructor allocates;
`finished_flag` is the `int` completion flag (`finished()` tests `> 0`);
`ompThreads` models the external OMP runtime's active-thread configuration,
which `run` updates through `omp_set_num_threads`. -/
structure SchedState where
  num_deques : Nat
  deques : Nat → Deque
  attempts : Nat → Nat
  finished_flag : Nat
  ompThreads : Nat

/-- The constructor: `num_deques = 2*num_workers(); deques = new ...;
attempts = new ...; finished_flag = 0;` for a pool of `W` workers.  The
source leaves each `attempt.val` default-initialized (indeterminate); the
model picks 0.  `omp0` is the runtime's prior thread-count setting. -/
def schedInit (W omp0 : Nat) : SchedState :=
  { num_deques := 2 * W
    deques := fun _ => Deque.init
    attempts := fun _ => 0
    finished_flag := 0
    ompThreads := omp0 }

/-- Replace deque `i` in the scheduler state. -/
def setDeque (s : SchedState) (i : Nat) (d : Deque) : SchedState :=
  { s with deques := fun k => if k = i then d else s.deques k }

/-- `scheduler::spawn`: push onto the calling worker's own deque. -/
def spawn (s : SchedState) (id job : Nat) : Option SchedState :=
  (push_bottom (s.deques id) job).map fun d => setDeque s id d

/-- `scheduler::try_pop`: pop from the calling worker's own deque. -/
def try_pop (s : SchedState) (id : Nat) : Option Nat × SchedState :=
  let r := pop_bottom_seq (s.deques id)
  (r.1, setDeque s id r.2)

/-- The victim index computed by `try_steal`:
`(hash(id) + hash(attempts[id].val)) % num_deques` in `size_t` arithmetic. -/
def stealTarget (s : SchedState) (id : Nat) : Nat :=
  (hash id + hash (s.attempts id)) % pow64 % s.num_deques

/-- `scheduler::try_steal`: compute the hashed victim index, increment the
per-worker attempt counter, and `pop_top` the victim deque (executed here
with no interference at the victim CAS). -/
def try_steal (s : SchedState) (id : Nat) : Option Nat × SchedState :=
  let target := stealTarget s id
  let s1 := { s with
    attempts := fun j => if j = id then (s.attempts j + 1) % pow64 else s.attempts j }
  let r := pop_top_seq (s1.deques target)
  (r.1, setDeque s1 target r.2)

/-- Observable events of the worker loop: a steal attempt against a victim
deque, or a backoff sleep of a given number of nanoseconds. -/
inductive SEv where
  | steal (target : Nat)
  | sleep (ns : Nat)
deriving DecidableEq

/-- One pass of the inner `for (int i=0; i <= num_deques*16; i++)` loop of
`get_job`, with `fuel` iterations left to run.  Result `some r` means
`get_job` returns `r` now (`some none` = NULL because `finished()` held,
`some (some job)` = a successful steal); `none` means the loop ran out of
iterations and control falls through to the sleep. -/
def stealTries (id : Nat) : Nat → SchedState → Option (Option Nat) × SchedState × List SEv
  | 0, s => (none, s, [])
  | fuel + 1, s =>
    if s.finished_flag > 0 then
      (some none, s, [])
    else
      let t := stealTarget s id
      let r := try_steal s id
      match r.1 with
      | some job => (some (some job), r.2, [SEv.steal t])
      | none =>
        let rest := stealTries id fuel r.2
        (rest.1, rest.2.1, SEv.steal t :: rest.2.2)

/-- The outer `while (1)` loop of `get_job`: each round runs the inner loop
(`16*num_deques + 1` iterations) and, if no job was found and `finished()`
never held, sleeps `num_deques*100` nanoseconds and retries.  `rounds` is
fuel bounding the number of rounds; exhausting it models divergence. -/
def getJobRounds (id : Nat) : Nat → SchedState → Option (Option Nat) × SchedState × List SEv
  | 0, s => (none, s, [])
  | rounds + 1, s =>
    let r := stealTries id (16 * s.num_deques + 1) s
    match r.1 with
    | some res => (some res, r.2.1, r.2.2)
    | none =>
      let ev := SEv.sleep (r.2.1.num_deques * 100)
      let rest := getJobRounds id rounds r.2.1
      (rest.1, rest.2.1, r.2.2 ++ ev :: rest.2.2)

/-- `scheduler::get_job`: if `finished()`, return NULL; otherwise try the
local stack; otherwise enter the steal/backoff loop. -/
def get_job (id rounds : Nat) (s : SchedState) : Option (Option Nat) × SchedState × List SEv :=
  if s.finished_flag > 0 then
    (some none, s, [])
  else
    let r := try_pop s id
    match r.1 with
    | some job => (some (some job), r.2, [])
    | none => getJobRounds id rounds r.2

/-- `scheduler::start`: run `get_job` and execute the returned job until
`get_job` returns NULL.  `env job` is the state transformation performed by
executing job `job` (jobs are opaque thunks acting on the scheduler).
`none` models divergence (fuel exhausted). -/
def startLoop (env : Nat → SchedState → SchedState) (id rounds : Nat) :
    Nat → SchedState → Option SchedState
  | 0, _ => none
  | fuel + 1, s =>
    let r := get_job id rounds s
    match r.1 with
    | none => none
    | some none => some r.2.1
    | some (some job) => startLoop env id rounds fuel (env job r.2.1)

/-- The guard of `if (num_threads > 0 && num_threads < 2 * num_workers())
omp_set_num_threads(num_threads);` in `scheduler::run`. -/
def runGuard (nt W : Nat) : Bool :=
  decide (0 < nt) && decide (nt < 2 * W)

/-- `scheduler::run(job, num_threads)` for a pool of `W` workers: push the
job onto worker 0's deque, conditionally reconfigure the runtime's thread
count, execute the parallel region (modelled as worker 0's `start` loop)
to completion, and reset the completion flag.  `none` models an aborted
push or a region that never terminates within `fuel`. -/
def run (env : Nat → SchedState → SchedState) (W job nt rounds fuel : Nat)
    (s : SchedState) : Option SchedState :=
  match spawn s 0 job with
  | none => none
  | some s1 =>
    let s2 := if runGuard nt W then { s1 with ompThreads := nt } else s1
    match startLoop env 0 rounds fuel s2 with
    | none => none
    | some s3 => some { s3 with finished_flag := 0 }

/-- Events a `pardo` call performs inline on the calling worker. -/
inductive PEv where
  | runLeft
  | runRight
deriving DecidableEq

/-- `fork_join_scheduler::pardo(left, right)` as executed when no other
worker intervenes (the single-thread case): spawn the right job, run
`left()` inline, observe `stolen == false`, `try_pop` the local deque, and
compare the popped pointer with the right job.  The result records the
final state, the list of computations run inline, and whether the call had
to fall through to `wait` (`true`) instead of returning immediately.
`rjob` is the identity of the stack-allocated right job. -/
def pardo_seq (s : SchedState) (id rjob : Nat) :
    Option (SchedState × List PEv × Bool) :=
  match spawn s id rjob with
  | none => none
  | some s1 =>
    let r := try_pop s1 id
    match r.1 with
    | some job =>
      if job = rjob then
        some (r.2, [PEv.runLeft, PEv.runRight], false)
      else
        match spawn r.2 id job with
        | none => none
        | some s3 => some (s3, [PEv.runLeft], true)
    | none => some (r.2, [PEv.runLeft], true)

/-- True of the trace events that are steal attempts. -/
def isStealEv : SEv → Bool
  | SEv.steal _ => true
  | SEv.sleep _ => false

/-- Example deque holding one job (42) at index 0. -/
def exD1 : Deque := { age := ⟨0, 0⟩, bot := 1, deq := fun _ => 42 }

/-- Example deque holding two jobs (both 5). -/
def exD2 : Deque := { age := ⟨0, 0⟩, bot := 2, deq := fun _ => 5 }

/-- Example deque whose age tag is at the top of the 32-bit range. -/
def exWrap : Deque := { age := ⟨pow32 - 1, 0⟩, bot := 1, deq := fun _ => 9 }

/-- Example job environment: every job sets the completion flag (as the
root job wrapped by `fork_join_scheduler::run` does via `finish()`). -/
def exEnv : Nat → SchedState → SchedState :=
  fun _ t => { t with finished_flag := 1 }

/-- Example scheduler state for a one-worker pool. -/
def exSched : SchedState := schedInit 1 0

/-- Helper: below the 32-bit wrap, `push_bottom` is the plain increment
guarded by the capacity test. -/
theorem push_bottom_eq_of_lt (s : Deque) (job : Nat) (h : s.bot + 1 < pow32) :
    push_bottom s job =
      if s.bot + 1 = q_size then none
      else some ⟨s.age, s.bot + 1, fun i => if i = s.bot then job else s.deq i⟩ := by
  simp [push_bottom, Nat.mod_eq_of_lt h]

/-- Helper: the bounds needed to avoid 32-bit wrap are implied by the
deque invariant. -/
theorem bot_succ_lt_pow32 (s : Deque) (h : DequeInv s) : s.bot + 1 < pow32 := by
  have hb : s.bot < q_size := h.2
  unfold q_size at hb
  unfold pow32
  omega

/-- Helper: `pop_top` written as one nested conditional. -/
theorem pop_top_eq (s : Deque) (ageC : AgeT) :
    pop_top s ageC =
      if s.bot ≤ s.age.top then (none, s)
      else if ageC = s.age then
        (some (s.deq s.age.top),
          { s with age := ⟨s.age.tag, (s.age.top + 1) % pow32⟩ })
      else (none, s) := rfl

/-- Helper: `pop_bottom` written as one nested conditional. -/
theorem pop_bottom_eq (s : Deque) (ageC : AgeT) :
    pop_bottom s ageC =
      if s.bot = 0 then (none, s)
      else if s.age.top < s.bot - 1 then
        (some (s.deq (s.bot - 1)), { s with bot := s.bot - 1 })
      else if s.bot - 1 = s.age.top ∧ ageC = s.age then
        (some (s.deq (s.bot - 1)),
          { s with bot := 0, age := ⟨(s.age.tag + 1) % pow32, 0⟩ })
      else
        (none, { s with bot := 0, age := ⟨(s.age.tag + 1) % pow32, 0⟩ }) := rfl

/-- C2: `pop_bottom` on a deque with `bottom == 0` returns no-job;
otherwise it decrements `bottom`; if the decremented bottom strictly
exceeds `age.top` it returns the job at the decremented index directly;
if the decremented bottom equals `age.top` it resets `bottom` to 0 and
attempts a CAS on `age` from `(tag, top)` to `(tag+1, 0)`, returning the
job on CAS success, and on CAS failure storing the new age `(tag+1, 0)`
and returning no-job. -/
theorem c2_pop_bottom_cases (s : Deque) (ageC : AgeT) :
    (s.bot = 0 → pop_bottom s ageC = (none, s)) ∧
    (s.bot ≠ 0 → s.age.top < s.bot - 1 →
      pop_bottom s ageC =
        (some (s.deq (s.bot - 1)), { s with bot := s.bot - 1 })) ∧
    (s.bot ≠ 0 → s.bot - 1 = s.age.top →
      (pop_bottom s ageC).2.bot = 0 ∧
      (ageC = s.age →
        pop_bottom s ageC =
          (some (s.deq (s.bot - 1)),
            { s with bot := 0, age := ⟨(s.age.tag + 1) % pow32, 0⟩ })) ∧
      (ageC ≠ s.age →
        pop_bottom s ageC =
          (none, { s with bot := 0, age := ⟨(s.age.tag + 1) % pow32, 0⟩ }))) := by
  refine ⟨fun h0 => ?_, fun h0 hgt => ?_, fun h0 heq => ?_⟩
  · simp [pop_bottom, h0]
  · simp [pop_bottom, h0, hgt]
  · have hnlt : ¬ s.age.top < s.bot - 1 := by omega
    refine ⟨?_, fun hc => ?_, fun hc => ?_⟩
    · by_cases hcas : ageC = s.age <;> simp [pop_bottom, h0, hnlt, heq, hcas]
    · simp [pop_bottom, h0, hnlt, heq, hc]
    · simp [pop_bottom, h0, hnlt, heq, hc]

/-- Witness for C2: a deque with one job and no interference takes the
empty-transition CAS-success path and returns the job. -/
theorem c2_witness :
    pop_bottom exD1 ⟨0, 0⟩ =
      (some (exD1.deq (exD1.bot - 1)),
        { exD1 with bot := 0, age := ⟨(exD1.age.tag + 1) % pow32, 0⟩ }) :=
  ((c2_pop_bottom_cases exD1 ⟨0, 0⟩).2.2 (by decide) (by decide)).2.1 rfl

/-- C3: `pop_top`, after loading `age` and `bottom`, returns no-job when
the loaded bottom is at most `age.top`; otherwise it reads the job at
index `age.top`, attempts a CAS on `age` from `(tag, top)` to
`(tag, top+1)`, and returns that job exactly when the CAS succeeds,
returning no-job when it fails. -/
theorem c3_pop_top_cases (s : Deque) (ageC : AgeT) :
    (s.bot ≤ s.age.top → pop_top s ageC = (none, s)) ∧
    (s.age.top < s.bot →
      (ageC = s.age →
        pop_top s ageC =
          (some (s.deq s.age.top),
            { s with age := ⟨s.age.tag, (s.age.top + 1) % pow32⟩ })) ∧
      (ageC ≠ s.age →
        pop_top s ageC = (none, s))) := by
  refine ⟨fun hle => ?_, fun hlt => ⟨fun hc => ?_, fun hc => ?_⟩⟩
  · simp [pop_top, hle]
  · have : ¬ s.bot ≤ s.age.top := by omega
    simp [pop_top, this, hc]
  · have : ¬ s.bot ≤ s.age.top := by omega
    simp [pop_top, this, hc]

/-- Witness for C3: stealing the single job of a one-job deque with no
interference succeeds and advances `top`. -/
theorem c3_witness :
    pop_top exD1 ⟨0, 0⟩ =
      (some (exD1.deq exD1.age.top),
        { exD1 with age := ⟨exD1.age.tag, (exD1.age.top + 1) % pow32⟩ }) :=
  ((c3_pop_top_cases exD1 ⟨0, 0⟩).2 (by decide)).1 rfl

/-- C4: the freshly constructed deque satisfies the invariant, the
invariant gives the claimed bounds `0 ≤ top ≤ bottom ≤ C`, every
sequentially applied `push_bottom` that does not abort, `pop_top`, and
`pop_bottom` preserves the invariant, `push_bottom` and `pop_top` never
change the tag, and the tag changes only on `pop_bottom`'s transition to
empty, where it becomes `tag + 1` (reduced modulo the 32-bit width). -/
theorem c4_invariant_preservation :
    DequeInv Deque.init ∧
    (∀ s, DequeInv s → s.age.top ≤ s.bot ∧ s.bot ≤ q_size) ∧
    (∀ s job s', DequeInv s → push_bottom s job = some s' →
      DequeInv s' ∧ s'.age.tag = s.age.tag) ∧
    (∀ s, DequeInv s →
      DequeInv (pop_top_seq s).2 ∧ (pop_top_seq s).2.age.tag = s.age.tag) ∧
    (∀ s, DequeInv s →
      DequeInv (pop_bottom_seq s).2 ∧
      ((pop_bottom_seq s).2.age.tag ≠ s.age.tag →
        s.bot ≠ 0 ∧ s.bot - 1 ≤ s.age.top ∧
        (pop_bottom_seq s).2.bot = 0 ∧ (pop_bottom_seq s).2.age.top = 0 ∧
        (pop_bottom_seq s).2.age.tag = (s.age.tag + 1) % pow32)) := by
  refine ⟨by decide, fun s h => ⟨h.1, Nat.le_of_lt h.2⟩, ?_, ?_, ?_⟩
  · intro s job s' h hp
    rw [push_bottom_eq_of_lt s job (bot_succ_lt_pow32 s h)] at hp
    have hb : s.bot < q_size := h.2
    have ht : s.age.top ≤ s.bot := h.1
    by_cases hc : s.bot + 1 = q_size
    · simp [hc] at hp
    · rw [if_neg hc] at hp
      have hx := Option.some.inj hp
      subst hx
      refine ⟨⟨?_, ?_⟩, rfl⟩
      · show s.age.top ≤ s.bot + 1
        omega
      · show s.bot + 1 < q_size
        omega
  · intro s h
    have hb : s.bot < q_size := h.2
    have ht : s.age.top ≤ s.bot := h.1
    rw [pop_top_seq, pop_top_eq]
    by_cases hle : s.bot ≤ s.age.top
    · rw [if_pos hle]
      exact ⟨h, rfl⟩
    · rw [if_neg hle, if_pos rfl]
      have hm : (s.age.top + 1) % pow32 = s.age.top + 1 :=
        Nat.mod_eq_of_lt (by unfold pow32; unfold q_size at hb; omega)
      refine ⟨⟨?_, ?_⟩, rfl⟩
      · show (s.age.top + 1) % pow32 ≤ s.bot
        rw [hm]
        omega
      · exact hb
  · intro s h
    have hb : s.bot < q_size := h.2
    have ht : s.age.top ≤ s.bot := h.1
    rw [pop_bottom_seq, pop_bottom_eq]
    by_cases h0 : s.bot = 0
    · rw [if_pos h0]
      exact ⟨h, fun hc => absurd rfl hc⟩
    · rw [if_neg h0]
      by_cases hgt : s.age.top < s.bot - 1
      · rw [if_pos hgt]
        refine ⟨⟨?_, ?_⟩, fun hc => absurd rfl hc⟩
        · show s.age.top ≤ s.bot - 1
          omega
        · show s.bot - 1 < q_size
          omega
      · rw [if_neg hgt]
        by_cases heq : s.bot - 1 = s.age.top
        · rw [if_pos ⟨heq, rfl⟩]
          refine ⟨⟨Nat.le_refl 0, by show (0:Nat) < q_size; decide⟩, fun _ => ⟨h0, by omega, rfl, rfl, rfl⟩⟩
        · rw [if_neg (fun hand => heq hand.1)]
          refine ⟨⟨Nat.le_refl 0, by show (0:Nat) < q_size; decide⟩, fun _ => ⟨h0, by omega, rfl, rfl, rfl⟩⟩

/-- Witness for C4: popping the single job of the example deque keeps the
invariant. -/
theorem c4_witness : DequeInv (pop_bottom_seq exD1).2 :=
  ((c4_invariant_preservation.2.2.2.2) exD1 (by decide)).1

/-- Counterexample for C5: on a deque whose tag sits at the top of the
32-bit range, `pop_bottom`'s empty transition neither checks for tag
exhaustion nor aborts: it returns the job normally while the tag silently
wraps to 0. -/
theorem c5_counterexample :
    (pop_bottom_seq exWrap).1 = some 9 ∧
    (pop_bottom_seq exWrap).2.age.tag = 0 ∧
    (pop_bottom_seq exWrap).2.bot = 0 := by
  decide

/-- C5 as amended: the tag increment performed by `pop_bottom`'s empty
transition has no exhaustion check and never aborts; the new tag is always
`(tag + 1) mod 2^32`, so at `tag = 2^32 - 1` it silently wraps to 0. -/
theorem c5_tag_wrap (s : Deque) (ageC : AgeT) (h0 : s.bot ≠ 0)
    (hle : s.bot - 1 ≤ s.age.top) :
    (pop_bottom s ageC).2.age.tag = (s.age.tag + 1) % pow32 ∧
    (s.age.tag = pow32 - 1 → (pop_bottom s ageC).2.age.tag = 0) := by
  have hnlt : ¬ s.age.top < s.bot - 1 := by omega
  have hmain : (pop_bottom s ageC).2.age.tag = (s.age.tag + 1) % pow32 := by
    rw [pop_bottom_eq, if_neg h0, if_neg hnlt]
    by_cases hcas : s.bot - 1 = s.age.top ∧ ageC = s.age
    · rw [if_pos hcas]
    · rw [if_neg hcas]
  refine ⟨hmain, fun htag => ?_⟩
  rw [hmain, htag]
  have hp : 0 < pow32 := by unfold pow32; norm_num
  rw [Nat.sub_add_cancel (Nat.one_le_iff_ne_zero.mpr (Nat.pos_iff_ne_zero.mp hp))]
  exact Nat.mod_self pow32

/-- Witness for C5: the wrap theorem applied to the example deque with the
tag at `2^32 - 1`. -/
theorem c5_witness :
    (pop_bottom exWrap exWrap.age).2.age.tag = (exWrap.age.tag + 1) % pow32 ∧
    (exWrap.age.tag = pow32 - 1 → (pop_bottom exWrap exWrap.age).2.age.tag = 0) :=
  c5_tag_wrap exWrap exWrap.age (by decide) (by decide)

/-- C6: `push_bottom` writes the job into the slot at the current bottom
index and increments `bottom`; if the incremented bottom would reach the
capacity `q_size = 200` it fails fatally (abort), and otherwise it returns
normally with `bottom` increased by exactly one. -/
theorem c6_push_bottom_spec (s : Deque) (job : Nat) (h : s.bot < q_size) :
    q_size = 200 ∧
    (s.bot + 1 = q_size → push_bottom s job = none) ∧
    (s.bot + 1 ≠ q_size →
      ∃ s', push_bottom s job = some s' ∧
        s'.bot = s.bot + 1 ∧ s'.deq s.bot = job ∧ s'.age = s.age ∧
        ∀ i, i ≠ s.bot → s'.deq i = s.deq i) := by
  have hlt : s.bot + 1 < pow32 := by
    unfold q_size at h
    unfold pow32
    omega
  rw [push_bottom_eq_of_lt s job hlt]
  refine ⟨rfl, fun hc => by rw [if_pos hc], fun hc => ?_⟩
  rw [if_neg hc]
  refine ⟨_, rfl, rfl, by simp, rfl, fun i hi => by simp [hi]⟩

/-- Witness for C6: pushing onto the fresh deque stores the job at slot 0
and moves `bottom` from 0 to 1. -/
theorem c6_witness :
    q_size = 200 ∧
    (Deque.init.bot + 1 = q_size → push_bottom Deque.init 7 = none) ∧
    (Deque.init.bot + 1 ≠ q_size →
      ∃ s', push_bottom Deque.init 7 = some s' ∧
        s'.bot = Deque.init.bot + 1 ∧ s'.deq Deque.init.bot = 7 ∧
        s'.age = Deque.init.age ∧
        ∀ i, i ≠ Deque.init.bot → s'.deq i = Deque.init.deq i) :=
  c6_push_bottom_spec Deque.init 7 (by decide)

/-- Helper: reading back the deque just written by `setDeque`. -/
theorem setDeque_self (s : SchedState) (i : Nat) (d : Deque) :
    (setDeque s i d).deques i = d := by
  simp [setDeque]

/-- Helper: with no interference, a `push_bottom` that does not overflow
followed by the owner's `pop_bottom` returns exactly the pushed job. -/
theorem push_then_pop_bottom (d : Deque) (job : Nat) (hinv : DequeInv d)
    (hcap : d.bot + 1 ≠ q_size) :
    ∃ d1 d2, push_bottom d job = some d1 ∧ pop_bottom_seq d1 = (some job, d2) := by
  have hlt := bot_succ_lt_pow32 d hinv
  have hpush : push_bottom d job =
      some (Deque.mk d.age (d.bot + 1) (fun i => if i = d.bot then job else d.deq i)) := by
    rw [push_bottom_eq_of_lt d job hlt, if_neg hcap]
  refine ⟨_, (pop_bottom_seq (Deque.mk d.age (d.bot + 1)
      (fun i => if i = d.bot then job else d.deq i))).2, hpush, ?_⟩
  have h1 : (pop_bottom_seq (Deque.mk d.age (d.bot + 1)
      (fun i => if i = d.bot then job else d.deq i))).1 = some job := by
    simp only [pop_bottom_seq, pop_bottom_eq]
    by_cases hgt : d.age.top < d.bot
    · simp [hgt]
    · have heq : d.age.top = d.bot := Nat.le_antisymm hinv.1 (Nat.le_of_not_lt hgt)
      simp [hgt, heq]
  exact Prod.ext h1 rfl

/-- C7: in a run where no other worker ever intervenes (the
`num_threads = 1` case), `pardo(left, right)` takes the all-sequential
fast path: it spawns the right job, runs `left` inline, `try_pop` returns
the right job itself, `right` runs inline, and the call returns
immediately without waiting — the inline execution order is exactly
`left` then `right`. -/
theorem c7_pardo_sequential (s : SchedState) (id rjob : Nat)
    (hinv : DequeInv (s.deques id)) (hcap : (s.deques id).bot + 1 ≠ q_size) :
    ∃ s2, pardo_seq s id rjob = some (s2, [PEv.runLeft, PEv.runRight], false) := by
  obtain ⟨d1, d2, hpush, hpop⟩ := push_then_pop_bottom (s.deques id) rjob hinv hcap
  have h1 : spawn s id rjob = some (setDeque s id d1) := by
    rw [spawn, hpush]
    rfl
  have h2 : pop_bottom_seq ((setDeque s id d1).deques id) = (some rjob, d2) := by
    rw [setDeque_self]
    exact hpop
  refine ⟨setDeque (setDeque s id d1) id d2, ?_⟩
  simp [pardo_seq, h1, try_pop, h2]

/-- Witness for C7: the fast path on a fresh one-worker scheduler. -/
theorem c7_witness :
    ∃ s2, pardo_seq exSched 0 5 = some (s2, [PEv.runLeft, PEv.runRight], false) :=
  c7_pardo_sequential exSched 0 5 (by decide) (by decide)

/-- Helper: one unfolding of `stealTries` when the flag is already set. -/
theorem stealTries_succ_finished (id k : Nat) (s : SchedState)
    (h : s.finished_flag > 0) :
    stealTries id (k + 1) s = (some none, s, []) := by
  simp [stealTries, h]

/-- Helper: one unfolding of `stealTries` on a successful steal. -/
theorem stealTries_succ_hit (id k : Nat) (s : SchedState) (job : Nat)
    (h : ¬ s.finished_flag > 0) (hr : (try_steal s id).1 = some job) :
    stealTries id (k + 1) s =
      (some (some job), (try_steal s id).2, [SEv.steal (stealTarget s id)]) := by
  simp [stealTries, h, hr]

/-- Helper: one unfolding of `stealTries` on a failed steal. -/
theorem stealTries_succ_miss (id k : Nat) (s : SchedState)
    (h : ¬ s.finished_flag > 0) (hr : (try_steal s id).1 = none) :
    stealTries id (k + 1) s =
      ((stealTries id k (try_steal s id).2).1,
       (stealTries id k (try_steal s id).2).2.1,
       SEv.steal (stealTarget s id) :: (stealTries id k (try_steal s id).2).2.2) := by
  simp [stealTries, h, hr]

/-- Helper: `try_steal` changes neither the completion flag, nor the
thread-count setting, nor the deque count. -/
theorem try_steal_misc (s : SchedState) (id : Nat) :
    (try_steal s id).2.finished_flag = s.finished_flag ∧
    (try_steal s id).2.ompThreads = s.ompThreads ∧
    (try_steal s id).2.num_deques = s.num_deques :=
  ⟨rfl, rfl, rfl⟩

/-- Helper: the inner steal loop changes neither the completion flag, nor
the thread-count setting, nor the deque count. -/
theorem stealTries_misc (id : Nat) : ∀ fuel s,
    (stealTries id fuel s).2.1.finished_flag = s.finished_flag ∧
    (stealTries id fuel s).2.1.ompThreads = s.ompThreads ∧
    (stealTries id fuel s).2.1.num_deques = s.num_deques := by
  intro fuel
  induction fuel with
  | zero => exact fun s => ⟨rfl, rfl, rfl⟩
  | succ k ih =>
    intro s
    by_cases hf : s.finished_flag > 0
    · rw [stealTries_succ_finished id k s hf]
      exact ⟨rfl, rfl, rfl⟩
    · cases hr : (try_steal s id).1 with
      | some job =>
        rw [stealTries_succ_hit id k s job hf hr]
        exact try_steal_misc s id
      | none =>
        rw [stealTries_succ_miss id k s hf hr]
        have h1 := ih (try_steal s id).2
        have h2 := try_steal_misc s id
        exact ⟨h1.1.trans h2.1, h1.2.1.trans h2.2.1, h1.2.2.trans h2.2.2⟩

/-- Helper: if the inner steal loop returns NULL, the completion flag is
set in the state it returns. -/
theorem stealTries_flag (id : Nat) : ∀ fuel s,
    (stealTries id fuel s).1 = some none →
    (stealTries id fuel s).2.1.finished_flag > 0 := by
  intro fuel
  induction fuel with
  | zero =>
    intro s h
    exact absurd h (by simp [stealTries])
  | succ k ih =>
    intro s h
    by_cases hf : s.finished_flag > 0
    · rw [stealTries_succ_finished id k s hf]
      exact hf
    · cases hr : (try_steal s id).1 with
      | some job =>
        rw [stealTries_succ_hit id k s job hf hr] at h
        exact absurd h (by simp)
      | none =>
        rw [stealTries_succ_miss id k s hf hr] at h ⊢
        exact ih (try_steal s id).2 h

/-- Helper: one unfolding of `getJobRounds` when the inner loop returns. -/
theorem getJobRounds_succ_ret (id k : Nat) (s : SchedState) (res : Option Nat)
    (hr : (stealTries id (16 * s.num_deques + 1) s).1 = some res) :
    getJobRounds id (k + 1) s =
      (some res, (stealTries id (16 * s.num_deques + 1) s).2.1,
       (stealTries id (16 * s.num_deques + 1) s).2.2) := by
  simp [getJobRounds, hr]

/-- Helper: one unfolding of `getJobRounds` when the inner loop falls
through to the sleep. -/
theorem getJobRounds_succ_sleep (id k : Nat) (s : SchedState)
    (hr : (stealTries id (16 * s.num_deques + 1) s).1 = none) :
    getJobRounds id (k + 1) s =
      ((getJobRounds id k (stealTries id (16 * s.num_deques + 1) s).2.1).1,
       (getJobRounds id k (stealTries id (16 * s.num_deques + 1) s).2.1).2.1,
       (stealTries id (16 * s.num_deques + 1) s).2.2 ++
         SEv.sleep ((stealTries id (16 * s.num_deques + 1) s).2.1.num_deques * 100) ::
         (getJobRounds id k (stealTries id (16 * s.num_deques + 1) s).2.1).2.2) := by
  simp [getJobRounds, hr]

/-- Helper: if the outer worker loop returns NULL, the completion flag is
set in the state it returns. -/
theorem getJobRounds_flag (id : Nat) : ∀ rounds s,
    (getJobRounds id rounds s).1 = some none →
    (getJobRounds id rounds s).2.1.finished_flag > 0 := by
  intro rounds
  induction rounds with
  | zero =>
    intro s h
    exact absurd h (by simp [getJobRounds])
  | succ k ih =>
    intro s h
    cases hr : (stealTries id (16 * s.num_deques + 1) s).1 with
    | some res =>
      rw [getJobRounds_succ_ret id k s res hr] at h ⊢
      have hres : res = none := by
        have := Option.some.inj h
        exact this
      subst hres
      exact stealTries_flag id (16 * s.num_deques + 1) s hr
    | none =>
      rw [getJobRounds_succ_sleep id k s hr] at h ⊢
      exact ih _ h

/-- Helper: if `get_job` returns NULL, the completion flag is set in the
state it returns. -/
theorem get_job_flag (id rounds : Nat) (s : SchedState)
    (h : (get_job id rounds s).1 = some none) :
    (get_job id rounds s).2.1.finished_flag > 0 := by
  by_cases hf : s.finished_flag > 0
  · simp only [get_job, hf, if_pos]
  · simp only [get_job, hf, if_false] at h ⊢
    cases hr : (try_pop s id).1 with
    | some job =>
      rw [hr] at h
      exact absurd h (by simp)
    | none =>
      rw [hr] at h
      exact getJobRounds_flag id rounds (try_pop s id).2 h

/-- Helper: if the worker loop `start` returns, the completion flag is set
in the state it returns. -/
theorem startLoop_flag (env : Nat → SchedState → SchedState) (id rounds : Nat) :
    ∀ fuel s s', startLoop env id rounds fuel s = some s' →
      s'.finished_flag > 0 := by
  intro fuel
  induction fuel with
  | zero =>
    intro s s' h
    exact absurd h (by simp [startLoop])
  | succ k ih =>
    intro s s' h
    rw [startLoop] at h
    cases hg : (get_job id rounds s).1 with
    | none => rw [hg] at h; exact absurd h (by simp)
    | some r =>
      cases r with
      | none =>
        rw [hg] at h
        have hs' := Option.some.inj h
        subst hs'
        exact get_job_flag id rounds s hg
      | some job =>
        rw [hg] at h
        exact ih (env job (get_job id rounds s).2.1) s' h

/-- Helper: the outer worker loop never changes the thread-count setting. -/
theorem getJobRounds_omp (id : Nat) : ∀ rounds s,
    (getJobRounds id rounds s).2.1.ompThreads = s.ompThreads := by
  intro rounds
  induction rounds with
  | zero => exact fun s => rfl
  | succ k ih =>
    intro s
    cases hr : (stealTries id (16 * s.num_deques + 1) s).1 with
    | some res =>
      rw [getJobRounds_succ_ret id k s res hr]
      exact (stealTries_misc id (16 * s.num_deques + 1) s).2.1
    | none =>
      rw [getJobRounds_succ_sleep id k s hr]
      exact (ih _).trans (stealTries_misc id (16 * s.num_deques + 1) s).2.1

/-- Helper: `get_job` never changes the thread-count setting. -/
theorem get_job_omp (id rounds : Nat) (s : SchedState) :
    (get_job id rounds s).2.1.ompThreads = s.ompThreads := by
  by_cases hf : s.finished_flag > 0
  · simp only [get_job, hf, if_pos]
  · simp only [get_job, hf, if_false]
    cases hr : (try_pop s id).1 with
    | some job => rfl
    | none => exact getJobRounds_omp id rounds (try_pop s id).2

/-- Helper: the worker loop never changes the thread-count setting when no
executed job does. -/
theorem startLoop_omp (env : Nat → SchedState → SchedState) (id rounds : Nat)
    (henv : ∀ j t, (env j t).ompThreads = t.ompThreads) :
    ∀ fuel s s', startLoop env id rounds fuel s = some s' →
      s'.ompThreads = s.ompThreads := by
  intro fuel
  induction fuel with
  | zero =>
    intro s s' h
    exact absurd h (by simp [startLoop])
  | succ k ih =>
    intro s s' h
    rw [startLoop] at h
    cases hg : (get_job id rounds s).1 with
    | none => rw [hg] at h; exact absurd h (by simp)
    | some r =>
      cases r with
      | none =>
        rw [hg] at h
        have hs' := Option.some.inj h
        subst hs'
        exact get_job_omp id rounds s
      | some job =>
        rw [hg] at h
        have h1 := ih (env job (get_job id rounds s).2.1) s' h
        rw [h1, henv job (get_job id rounds s).2.1, get_job_omp id rounds s]

/-- Helper: `spawn` never changes the thread-count setting. -/
theorem spawn_omp (s : SchedState) (id job : Nat) (s1 : SchedState)
    (h : spawn s id job = some s1) : s1.ompThreads = s.ompThreads := by
  cases hp : push_bottom (s.deques id) job with
  | none => rw [spawn, hp] at h; exact absurd h (by simp)
  | some d =>
    rw [spawn, hp] at h
    have := Option.some.inj h
    subst this
    rfl

/-- C8: `scheduler::run` pushes the given job onto worker 0's deque,
reconfigures the worker count only when `0 < num_threads` and
`num_threads` does not exceed the provisioned pool of `2*num_workers`
deque slots, blocks until the global completion flag becomes true (the
parallel region returns only from a state whose flag is set), and resets
the completion flag to 0 before returning, so a subsequent `run` on the
same scheduler starts with no stuck flag. -/
theorem c8_run_spec (env : Nat → SchedState → SchedState)
    (W job nt rounds fuel : Nat) (s s' : SchedState)
    (henv : ∀ j t, (env j t).ompThreads = t.ompThreads)
    (hrun : run env W job nt rounds fuel s = some s') :
    s'.finished_flag = 0 ∧
    (∃ s1, spawn s 0 job = some s1) ∧
    (s'.ompThreads ≠ s.ompThreads → 0 < nt ∧ nt ≤ 2 * W) ∧
    (∃ s3 : SchedState, s3.finished_flag > 0 ∧ s' = { s3 with finished_flag := 0 }) := by
  cases hs1 : spawn s 0 job with
  | none => rw [run, hs1] at hrun; exact absurd hrun (by simp)
  | some s1 =>
    rw [run, hs1] at hrun
    by_cases hguard : runGuard nt W
    · simp only [hguard, if_pos] at hrun
      cases hsl : startLoop env 0 rounds fuel { s1 with ompThreads := nt } with
      | none => rw [hsl] at hrun; exact absurd hrun (by simp)
      | some s3 =>
        rw [hsl] at hrun
        have hs' := Option.some.inj hrun
        subst hs'
        refine ⟨rfl, ⟨s1, rfl⟩, fun _ => ?_, s3,
          startLoop_flag env 0 rounds fuel _ s3 hsl, rfl⟩
        have hg := hguard
        rw [runGuard, Bool.and_eq_true, decide_eq_true_iff, decide_eq_true_iff] at hg
        exact ⟨hg.1, Nat.le_of_lt hg.2⟩
    · simp only [hguard, if_neg, Bool.false_eq_true, if_false] at hrun
      cases hsl : startLoop env 0 rounds fuel s1 with
      | none => rw [hsl] at hrun; exact absurd hrun (by simp)
      | some s3 =>
        rw [hsl] at hrun
        have hs' := Option.some.inj hrun
        subst hs'
        refine ⟨rfl, ⟨s1, rfl⟩, fun hne => absurd ?_ hne, s3,
          startLoop_flag env 0 rounds fuel s1 s3 hsl, rfl⟩
        show ({ s3 with finished_flag := 0 } : SchedState).ompThreads = s.ompThreads
        have h1 : s3.ompThreads = s1.ompThreads :=
          startLoop_omp env 0 rounds henv fuel s1 s3 hsl
        exact h1.trans (spawn_omp s 0 job s1 hs1)

/-- Witness for C8: a one-worker run whose root job sets the completion
flag terminates with the flag reset to 0. -/
theorem c8_witness :
    ∃ s', run exEnv 1 7 1 0 2 exSched = some s' ∧ s'.finished_flag = 0 := by
  cases hr : run exEnv 1 7 1 0 2 exSched with
  | none =>
    have hsome : (run exEnv 1 7 1 0 2 exSched).isSome = true := by decide
    rw [hr] at hsome
    exact absurd hsome (by decide)
  | some s' =>
    exact ⟨s', rfl,
      (c8_run_spec exEnv 1 7 1 0 2 exSched s' (fun j t => rfl) hr).1⟩

/-- Helper: the inner steal loop records at most one steal event per
iteration of the `for` loop. -/
theorem stealTries_countP (id : Nat) : ∀ fuel s,
    ((stealTries id fuel s).2.2.countP isStealEv) ≤ fuel := by
  intro fuel
  induction fuel with
  | zero => intro s; simp [stealTries]
  | succ k ih =>
    intro s
    by_cases hf : s.finished_flag > 0
    · rw [stealTries_succ_finished id k s hf]
      simp
    · cases hr : (try_steal s id).1 with
      | some job =>
        rw [stealTries_succ_hit id k s job hf hr]
        simp [isStealEv]
      | none =>
        rw [stealTries_succ_miss id k s hf hr]
        have := ih (try_steal s id).2
        simp [List.countP_cons, isStealEv]
        omega

/-- Helper: the inner steal loop records no sleep events. -/
theorem stealTries_no_sleep (id : Nat) : ∀ fuel s ns,
    SEv.sleep ns ∉ (stealTries id fuel s).2.2 := by
  intro fuel
  induction fuel with
  | zero => intro s ns; simp [stealTries]
  | succ k ih =>
    intro s ns
    by_cases hf : s.finished_flag > 0
    · rw [stealTries_succ_finished id k s hf]
      simp
    · cases hr : (try_steal s id).1 with
      | some job =>
        rw [stealTries_succ_hit id k s job hf hr]
        simp
      | none =>
        rw [stealTries_succ_miss id k s hf hr]
        simp only [List.mem_cons, not_or]
        exact ⟨by simp, ih (try_steal s id).2 ns⟩

/-- Helper: every sleep event recorded by the worker loop lasts
`num_deques * 100` nanoseconds. -/
theorem getJobRounds_sleep (id : Nat) : ∀ rounds s ns,
    SEv.sleep ns ∈ (getJobRounds id rounds s).2.2 → ns = s.num_deques * 100 := by
  intro rounds
  induction rounds with
  | zero =>
    intro s ns h
    exact absurd h (by simp [getJobRounds])
  | succ k ih =>
    intro s ns h
    cases hr : (stealTries id (16 * s.num_deques + 1) s).1 with
    | some res =>
      rw [getJobRounds_succ_ret id k s res hr] at h
      exact absurd h (stealTries_no_sleep id _ s ns)
    | none =>
      rw [getJobRounds_succ_sleep id k s hr] at h
      have hnd := (stealTries_misc id (16 * s.num_deques + 1) s).2.2
      rcases List.mem_append.mp h with hin | hin
      · exact absurd hin (stealTries_no_sleep id _ s ns)
      · rcases List.mem_cons.mp hin with heq | hin2
        · have := SEv.sleep.inj heq
          rw [this, hnd]
        · have := ih _ ns hin2
          rw [this, hnd]

/-- C9: `try_steal` selects the victim deque as
`(hash(worker_id) + hash(attempt_counter)) mod num_deques` with the fixed
avalanche `hash`, incrementing the attempt counter by exactly one per
trial, and each round of the worker loop in `get_job` performs at most
`16*num_deques + 1` steal attempts before sleeping `num_deques * 100`
nanoseconds. -/
theorem c9_steal_protocol :
    (∀ s id, stealTarget s id =
      (hash id + hash (s.attempts id)) % pow64 % s.num_deques) ∧
    (∀ s id, (try_steal s id).2.attempts id = (s.attempts id + 1) % pow64) ∧
    (∀ s id, s.attempts id + 1 < pow64 →
      (try_steal s id).2.attempts id = s.attempts id + 1) ∧
    (∀ id s, ((stealTries id (16 * s.num_deques + 1) s).2.2.countP isStealEv) ≤
      16 * s.num_deques + 1) ∧
    (∀ id rounds s ns, SEv.sleep ns ∈ (getJobRounds id rounds s).2.2 →
      ns = s.num_deques * 100) := by
  refine ⟨fun s id => rfl, fun s id => ?_, fun s id h => ?_,
    fun id s => stealTries_countP id _ s, fun id rounds s ns h =>
      getJobRounds_sleep id rounds s ns h⟩
  · simp [try_steal, setDeque]
  · have h2 : (try_steal s id).2.attempts id = (s.attempts id + 1) % pow64 := by
      simp [try_steal, setDeque]
    rw [h2, Nat.mod_eq_of_lt h]

/-- Witness for C9: on the fresh one-worker scheduler the counter moves
from 0 to 1, and the single recorded sleep lasts `2 * 100 = 200`
nanoseconds. -/
theorem c9_witness :
    (try_steal exSched 0).2.attempts 0 = exSched.attempts 0 + 1 ∧
    (200 : Nat) = exSched.num_deques * 100 :=
  ⟨c9_steal_protocol.2.2.1 exSched 0 (by decide),
   c9_steal_protocol.2.2.2.2 0 1 exSched 200 (by decide)⟩

/-- C10: the constructor provisions `2 * num_workers` deques, so every
worker id below the worker count indexes a valid deque in `spawn` and
`try_pop`; the victim index of `try_steal` is always below `num_deques`;
and under the deque invariant every slot index used by `push_bottom`
(`bot`), `pop_bottom` (`bot - 1`) and `pop_top` (`top`, read only when
`top < bot`) is strictly below `q_size`. -/
theorem c10_index_bounds :
    (∀ W omp0, (schedInit W omp0).num_deques = 2 * W) ∧
    (∀ W omp0 id, id < W → id < (schedInit W omp0).num_deques) ∧
    (∀ s id, 0 < s.num_deques → stealTarget s id < s.num_deques) ∧
    (∀ d : Deque, DequeInv d →
      d.bot < q_size ∧
      (d.bot ≠ 0 → d.bot - 1 < q_size) ∧
      (d.age.top < d.bot → d.age.top < q_size)) := by
  refine ⟨fun W omp0 => rfl, fun W omp0 id h => ?_, fun s id h => Nat.mod_lt _ h,
    fun d h => ?_⟩
  · show id < 2 * W
    omega
  · have h1 := h.1
    have h2 := h.2
    exact ⟨h2, fun _ => by omega, fun hlt => by omega⟩

/-- Witness for C10: concrete in-bounds indices on the example states. -/
theorem c10_witness :
    (0 : Nat) < (schedInit 1 0).num_deques ∧
    stealTarget exSched 0 < exSched.num_deques ∧
    exD1.bot < q_size :=
  ⟨c10_index_bounds.2.1 1 0 0 (by decide),
   c10_index_bounds.2.2.1 exSched 0 (by decide),
   (c10_index_bounds.2.2.2 exD1 (by decide)).1⟩

end SchedulerH
